import Mathlib

/-!
# Verification of the ICP registration pipeline specification

Shallow embedding of the host-side algorithms of the ICP repository
(`src/ICP/algorithms.cpp`, `include/ICP/tests/helper_funcs.hpp`) and proofs of
the specification claims about them.

Conventions:
* The serial reference implementations in `helper_funcs.hpp` operate on
  single-precision floats; they are embedded over the exact field `ℚ`
  (their bodies use only field operations).
* The host-side orchestration code (`ICPStep::run`, `ICP::check`) uses
  `float`/`double` together with transcendental functions (`sqrt`, `atan2`);
  it is embedded over `ℝ`.
* C arrays of length n with stride access are embedded as functions
  `Fin n → K`; a loop writing one output record per input record is embedded
  as the per-record function applied pointwise.
-/

namespace ICPSpec

open scoped Matrix

/-! ## Transform applicator (helper_funcs.hpp) -/

/-- `cross_product` (helper_funcs.hpp): cross product of the first three
components of two vectors. Generic over the scalar ring. -/
def cross_product {K : Type} [CommRing K] (a b : Fin 3 → K) : Fin 3 → K :=
  ![a 1 * b 2 - a 2 * b 1,
    a 2 * b 0 - a 0 * b 2,
    a 0 * b 1 - a 1 * b 0]

/-- Body of the per-point loop of `cpuICPTransformQ` (helper_funcs.hpp):
quaternion-form similarity transform
`p' = s·(p + 2q_xyz×(q_xyz×p + q_w·p)) + t` applied to the geometric part of
an 8-component point; components 3..7 are copied through.
`D = (q_x, q_y, q_z, q_w, t_x, t_y, t_z, s)`. -/
def cpuICPTransformQ (D : Fin 8 → ℚ) (p : Fin 8 → ℚ) : Fin 8 → ℚ :=
  let q : Fin 4 → ℚ := ![D 0, D 1, D 2, D 3]
  let t : Fin 3 → ℚ := ![D 4, D 5, D 6]
  let s : ℚ := D 7
  let pv : Fin 3 → ℚ := ![p 0, p 1, p 2]
  let q2 : Fin 3 → ℚ := ![2 * q 0, 2 * q 1, 2 * q 2]
  let qc : Fin 3 → ℚ := cross_product ![q 0, q 1, q 2] pv
  let qcp : Fin 3 → ℚ := ![qc 0 + q 3 * pv 0, qc 1 + q 3 * pv 1, qc 2 + q 3 * pv 2]
  let q2cqcp : Fin 3 → ℚ := cross_product q2 qcp
  ![s * (pv 0 + q2cqcp 0) + t 0,
    s * (pv 1 + q2cqcp 1) + t 1,
    s * (pv 2 + q2cqcp 2) + t 2,
    p 3, p 4, p 5, p 6, p 7]

/-- Body of the per-point loop of `cpuICPTransformM` (helper_funcs.hpp):
matrix-form transform `p' = T·p` with `T` the top three rows of a 4×4 matrix
supplied in row-major order (`D : Fin 16 → ℚ`); the inner products run over
the first four components of the point; components 3..7 are copied through. -/
def cpuICPTransformM (D : Fin 16 → ℚ) (p : Fin 8 → ℚ) : Fin 8 → ℚ :=
  ![D 0 * p 0 + D 1 * p 1 + D 2 * p 2 + D 3 * p 3,
    D 4 * p 0 + D 5 * p 1 + D 6 * p 2 + D 7 * p 3,
    D 8 * p 0 + D 9 * p 1 + D 10 * p 2 + D 11 * p 3,
    p 3, p 4, p 5, p 6, p 7]

/-- Rotation matrix of a quaternion `(x, y, z, w)` (row-major), as produced by
`Eigen::Quaternion::toRotationMatrix` (used at `ICPStep<POWER_METHOD>::run`)
and by the reference matrix in the `icpTransform_Matrix` test. Valid as a
rotation only for unit quaternions. Generic over the scalar ring. -/
def quatToRotMat {K : Type} [CommRing K] (q : Fin 4 → K) : Matrix (Fin 3) (Fin 3) K :=
  !![1 - 2 * (q 1 * q 1 + q 2 * q 2), 2 * (q 0 * q 1 - q 3 * q 2), 2 * (q 0 * q 2 + q 3 * q 1);
     2 * (q 0 * q 1 + q 3 * q 2), 1 - 2 * (q 0 * q 0 + q 2 * q 2), 2 * (q 1 * q 2 - q 3 * q 0);
     2 * (q 0 * q 2 - q 3 * q 1), 2 * (q 1 * q 2 + q 3 * q 0), 1 - 2 * (q 0 * q 0 + q 1 * q 1)]

/-- The 4×4 row-major matrix equivalent to the similarity transform
`D = (q, t, s)`: top-left 3×3 block `s·R(q)`, last column `t`, last row
`(0,0,0,1)` — the layout written by the `icpTransform_Matrix` test. -/
def equivalentMatrix (D : Fin 8 → ℚ) : Fin 16 → ℚ :=
  let R := quatToRotMat ![D 0, D 1, D 2, D 3]
  let s := D 7
  ![s * R 0 0, s * R 0 1, s * R 0 2, D 4,
    s * R 1 0, s * R 1 1, s * R 1 2, D 5,
    s * R 2 0, s * R 2 1, s * R 2 2, D 6,
    0, 0, 0, 1]

/-- C7 — Transform round-trip: for every 8-component point whose homogeneous
pad (component 3) is `1` and every similarity transform whose quaternion part
is unit, the quaternion-form applicator and the matrix-form applicator with
the equivalent 4×4 row-major matrix produce the same transformed point
(exactly, in exact arithmetic). -/
theorem transform_roundtrip (D : Fin 8 → ℚ) (p : Fin 8 → ℚ)
    (hq : D 0 * D 0 + D 1 * D 1 + D 2 * D 2 + D 3 * D 3 = 1)
    (hp : p 3 = 1) :
    cpuICPTransformQ D p = cpuICPTransformM (equivalentMatrix D) p := by
  funext i
  fin_cases i
  · show D 7 * (p 0 + (2 * D 1 * ((D 0 * p 1 - D 1 * p 0) + D 3 * p 2)
          - 2 * D 2 * ((D 2 * p 0 - D 0 * p 2) + D 3 * p 1))) + D 4
        = D 7 * (1 - 2 * (D 1 * D 1 + D 2 * D 2)) * p 0
          + D 7 * (2 * (D 0 * D 1 - D 3 * D 2)) * p 1
          + D 7 * (2 * (D 0 * D 2 + D 3 * D 1)) * p 2 + D 4 * p 3
    linear_combination (-(D 4)) * hp
  · show D 7 * (p 1 + (2 * D 2 * ((D 1 * p 2 - D 2 * p 1) + D 3 * p 0)
          - 2 * D 0 * ((D 0 * p 1 - D 1 * p 0) + D 3 * p 2))) + D 5
        = D 7 * (2 * (D 0 * D 1 + D 3 * D 2)) * p 0
          + D 7 * (1 - 2 * (D 0 * D 0 + D 2 * D 2)) * p 1
          + D 7 * (2 * (D 1 * D 2 - D 3 * D 0)) * p 2 + D 5 * p 3
    linear_combination (-(D 5)) * hp
  · show D 7 * (p 2 + (2 * D 0 * ((D 2 * p 0 - D 0 * p 2) + D 3 * p 1)
          - 2 * D 1 * ((D 1 * p 2 - D 2 * p 1) + D 3 * p 0))) + D 6
        = D 7 * (2 * (D 0 * D 2 - D 3 * D 1)) * p 0
          + D 7 * (2 * (D 1 * D 2 + D 3 * D 0)) * p 1
          + D 7 * (1 - 2 * (D 0 * D 0 + D 1 * D 1)) * p 2 + D 6 * p 3
    linear_combination (-(D 6)) * hp
  · rfl
  · rfl
  · rfl
  · rfl
  · rfl

/-- C7 witness. -/
theorem transform_roundtrip_witness :
    ((0 : ℚ) * 0 + 0 * 0 + 0 * 0 + 1 * 1 = 1)
    ∧ cpuICPTransformQ ![0, 0, 0, 1, 5, 0, 0, 2] ![3, 4, 5, 1, 9, 8, 7, 6]
      = cpuICPTransformM (equivalentMatrix ![0, 0, 0, 1, 5, 0, 0, 2]) ![3, 4, 5, 1, 9, 8, 7, 6] :=
  ⟨by norm_num,
    transform_roundtrip ![0, 0, 0, 1, 5, 0, 0, 2] ![3, 4, 5, 1, 9, 8, 7, 6]
      (by show (0 : ℚ) * 0 + 0 * 0 + 0 * 0 + 1 * 1 = 1; norm_num) rfl⟩

/-- C9 — Frame property of the transform applicators: both the quaternion-form
and the matrix-form applicator leave components 3 through 7 (homogeneous pad
and photometric part) of every point unchanged, for every transform. -/
theorem transform_frame (D : Fin 8 → ℚ) (D16 : Fin 16 → ℚ) (p : Fin 8 → ℚ) :
    cpuICPTransformQ D p 3 = p 3 ∧ cpuICPTransformQ D p 4 = p 4
    ∧ cpuICPTransformQ D p 5 = p 5 ∧ cpuICPTransformQ D p 6 = p 6
    ∧ cpuICPTransformQ D p 7 = p 7
    ∧ cpuICPTransformM D16 p 3 = p 3 ∧ cpuICPTransformM D16 p 4 = p 4
    ∧ cpuICPTransformM D16 p 5 = p 5 ∧ cpuICPTransformM D16 p 6 = p 6
    ∧ cpuICPTransformM D16 p 7 = p 7 := by
  refine ⟨?_, ?_, ?_, ?_, ?_, ?_, ?_, ?_, ?_, ?_⟩ <;> rfl

/-! ## Centroid and cross-covariance estimators (helper_funcs.hpp) -/

/-- `cpuICPMean` (helper_funcs.hpp): unweighted mean of the xyz components of
the fixed set (output components 0..2) and the moving set (components 4..6);
components 3 and 7 stay at their `0` initialization. The accumulation loop
`mean[c] += F[j*8+c] / n` is embedded as a sum over `Finset.range n`. -/
def cpuICPMean (F M : ℕ → Fin 8 → ℚ) (n : ℕ) : Fin 8 → ℚ :=
  ![∑ j ∈ Finset.range n, F j 0 / n,
    ∑ j ∈ Finset.range n, F j 1 / n,
    ∑ j ∈ Finset.range n, F j 2 / n,
    0,
    ∑ j ∈ Finset.range n, M j 0 / n,
    ∑ j ∈ Finset.range n, M j 1 / n,
    ∑ j ∈ Finset.range n, M j 2 / n,
    0]

/-- `cpuICPMeanWeighted` (helper_funcs.hpp): weighted mean with per-pair
weights `W`; each point is scaled by `w = W[j] / Σw` before accumulation. -/
def cpuICPMeanWeighted (F M : ℕ → Fin 8 → ℚ) (W : ℕ → ℚ) (n : ℕ) : Fin 8 → ℚ :=
  let sum_w : ℚ := ∑ j ∈ Finset.range n, W j
  ![∑ j ∈ Finset.range n, W j / sum_w * F j 0,
    ∑ j ∈ Finset.range n, W j / sum_w * F j 1,
    ∑ j ∈ Finset.range n, W j / sum_w * F j 2,
    0,
    ∑ j ∈ Finset.range n, W j / sum_w * M j 0,
    ∑ j ∈ Finset.range n, W j / sum_w * M j 1,
    ∑ j ∈ Finset.range n, W j / sum_w * M j 2,
    0]

/-- `cpuICPS` (helper_funcs.hpp): the 11-scalar covariance bundle — the 9
row-major entries of `S_jk = Σ_i (c·dev_moving_i[j])·(c·dev_fixed_i[k])`
followed by `Σ‖c·dev_moving‖²` (entry 9) and `Σ‖c·dev_fixed‖²` (entry 10). -/
def cpuICPS (DM DF : ℕ → Fin 4 → ℚ) (m : ℕ) (c : ℚ) : Fin 11 → ℚ :=
  ![∑ i ∈ Finset.range m, c * DM i 0 * (c * DF i 0),
    ∑ i ∈ Finset.range m, c * DM i 0 * (c * DF i 1),
    ∑ i ∈ Finset.range m, c * DM i 0 * (c * DF i 2),
    ∑ i ∈ Finset.range m, c * DM i 1 * (c * DF i 0),
    ∑ i ∈ Finset.range m, c * DM i 1 * (c * DF i 1),
    ∑ i ∈ Finset.range m, c * DM i 1 * (c * DF i 2),
    ∑ i ∈ Finset.range m, c * DM i 2 * (c * DF i 0),
    ∑ i ∈ Finset.range m, c * DM i 2 * (c * DF i 1),
    ∑ i ∈ Finset.range m, c * DM i 2 * (c * DF i 2),
    ∑ i ∈ Finset.range m,
      (c * DM i 0 * (c * DM i 0) + c * DM i 1 * (c * DM i 1) + c * DM i 2 * (c * DM i 2)),
    ∑ i ∈ Finset.range m,
      (c * DF i 0 * (c * DF i 0) + c * DF i 1 * (c * DF i 1) + c * DF i 2 * (c * DF i 2))]

/-- `cpuICPSw` (helper_funcs.hpp): the weighted covariance bundle; every
product contribution of pair `i` is additionally scaled by `W[i]`. -/
def cpuICPSw (DM DF : ℕ → Fin 4 → ℚ) (W : ℕ → ℚ) (m : ℕ) (c : ℚ) : Fin 11 → ℚ :=
  ![∑ i ∈ Finset.range m, W i * (c * DM i 0) * (c * DF i 0),
    ∑ i ∈ Finset.range m, W i * (c * DM i 0) * (c * DF i 1),
    ∑ i ∈ Finset.range m, W i * (c * DM i 0) * (c * DF i 2),
    ∑ i ∈ Finset.range m, W i * (c * DM i 1) * (c * DF i 0),
    ∑ i ∈ Finset.range m, W i * (c * DM i 1) * (c * DF i 1),
    ∑ i ∈ Finset.range m, W i * (c * DM i 1) * (c * DF i 2),
    ∑ i ∈ Finset.range m, W i * (c * DM i 2) * (c * DF i 0),
    ∑ i ∈ Finset.range m, W i * (c * DM i 2) * (c * DF i 1),
    ∑ i ∈ Finset.range m, W i * (c * DM i 2) * (c * DF i 2),
    ∑ i ∈ Finset.range m,
      W i * (c * DM i 0 * (c * DM i 0) + c * DM i 1 * (c * DM i 1) + c * DM i 2 * (c * DM i 2)),
    ∑ i ∈ Finset.range m,
      W i * (c * DF i 0 * (c * DF i 0) + c * DF i 1 * (c * DF i 1) + c * DF i 2 * (c * DF i 2))]

/-- C6 — Weighted-vs-unweighted equivalence: if every weight is `1`, the
weighted centroid equals the regular centroid (all 8 output components, for
both the fixed and the moving set) and the weighted covariance bundle equals
the regular bundle (all 9 matrix entries and both scale-constituent sums). -/
theorem weighted_unweighted_equiv (F M : ℕ → Fin 8 → ℚ) (DM DF : ℕ → Fin 4 → ℚ)
    (W : ℕ → ℚ) (n : ℕ) (c : ℚ) (hW : ∀ j < n, W j = 1) :
    cpuICPMeanWeighted F M W n = cpuICPMean F M n
    ∧ cpuICPSw DM DF W n c = cpuICPS DM DF n c := by
  have hsw : (∑ j ∈ Finset.range n, W j) = (n : ℚ) := by
    rw [Finset.sum_congr rfl fun j hj => hW j (Finset.mem_range.mp hj)]
    simp
  constructor
  · simp only [cpuICPMeanWeighted, cpuICPMean, hsw, Matrix.vecCons, Fin.cons_eq_cons]
    refine ⟨?_, ?_, ?_, trivial, ?_, ?_, ?_, trivial⟩ <;>
      exact Finset.sum_congr rfl fun j hj => by
        rw [hW j (Finset.mem_range.mp hj)]; ring
  · simp only [cpuICPSw, cpuICPS, Matrix.vecCons, Fin.cons_eq_cons]
    refine ⟨?_, ?_, ?_, ?_, ?_, ?_, ?_, ?_, ?_, ?_, ?_, trivial⟩ <;>
      exact Finset.sum_congr rfl fun i hi => by
        rw [hW i (Finset.mem_range.mp hi)]; ring

/-- C6 witness. -/
theorem weighted_unweighted_equiv_witness :
    (∀ j < 2, (fun _ : ℕ => (1 : ℚ)) j = 1)
    ∧ cpuICPMeanWeighted (fun j _ => j) (fun j _ => j + 1) (fun _ => 1) 2
        = cpuICPMean (fun j _ => j) (fun j _ => j + 1) 2
    ∧ cpuICPSw (fun j _ => j) (fun j _ => j + 2) (fun _ => 1) 2 3
        = cpuICPS (fun j _ => j) (fun j _ => j + 2) 2 3 :=
  ⟨fun _ _ => rfl,
    (weighted_unweighted_equiv (fun j _ => j) (fun j _ => j + 1)
      (fun j _ => j) (fun j _ => j + 1) (fun _ => 1) 2 3 fun _ _ => rfl).1,
    (weighted_unweighted_equiv (fun j _ => j) (fun j _ => j + 1)
      (fun j _ => j) (fun j _ => j + 2) (fun _ => 1) 2 3 fun _ _ => rfl).2⟩

/-! ## Reduction primitive (`Reduce::init` / `Reduce::run`, algorithms.cpp) -/

/-- Configuration state established by a successful `Reduce::init`. -/
structure ReduceState where
  wgMultiple : ℕ
  cols : ℕ
  rows : ℕ
  wgXdim : ℕ

/-- The two kernels a `Reduce` object can enqueue. -/
inductive ReduceKernel where
  | recKernel
  | groupRecKernel
  deriving DecidableEq

namespace Reduce

/-- Number of work-groups per row established by `Reduce::init`:
`wgXdim = ceil(cols / (8·wgMultiple))`, then rounded up to a multiple of 4
when different from 1 (`if ((wgXdim != 1) && (wgXdim % 4)) wgXdim += 4 - wgXdim % 4`). -/
def wgXdimOf (wgMultiple cols : ℕ) : ℕ :=
  if (cols + 8 * wgMultiple - 1) / (8 * wgMultiple) ≠ 1
      ∧ (cols + 8 * wgMultiple - 1) / (8 * wgMultiple) % 4 ≠ 0 then
    (cols + 8 * wgMultiple - 1) / (8 * wgMultiple)
      + (4 - (cols + 8 * wgMultiple - 1) / (8 * wgMultiple) % 4)
  else
    (cols + 8 * wgMultiple - 1) / (8 * wgMultiple)

/-- `Reduce::init` (algorithms.cpp): computes the work-group layout and then
validates the configuration inside a `try` block; any validation failure is
printed and the process exits (`exit (EXIT_FAILURE)`) before any kernel or
staging-buffer operation is enqueued — embedded as `Except.error`. -/
def init (wgMultiple cols rows : ℕ) : Except String ReduceState :=
  let wgXdim := wgXdimOf wgMultiple cols
  if wgXdim = 0 then
    .error "The array cannot have zero columns"
  else if cols % 4 ≠ 0 then
    .error "The number of columns in the array must be a multiple of 4"
  else if cols > (8 * wgMultiple) ^ 2 then
    .error ("The current configuration of MinReduce supports arrays of up to "
      ++ toString ((8 * wgMultiple) ^ 2) ++ " columns")
  else
    .ok ⟨wgMultiple, cols, rows, wgXdim⟩

/-- `Reduce::run` (algorithms.cpp): with one work-group per row (`wgXdim == 1`)
a single kernel is enqueued; otherwise the per-group reduction kernel is
followed by the inter-group reduction kernel. -/
def run (st : ReduceState) : List ReduceKernel :=
  if st.wgXdim = 1 then [.recKernel] else [.recKernel, .groupRecKernel]

/-- The work-group count vanishes exactly on an empty row. -/
theorem wgXdimOf_eq_zero_iff {wgMultiple cols : ℕ} (hwg : 0 < wgMultiple) :
    wgXdimOf wgMultiple cols = 0 ↔ cols = 0 := by
  rcases Nat.eq_zero_or_pos cols with hc | hc
  · subst hc
    have hd : (0 + 8 * wgMultiple - 1) / (8 * wgMultiple) = 0 :=
      Nat.div_eq_of_lt (by omega)
    unfold wgXdimOf
    rw [hd]
    simp
  · have hd : 1 ≤ (cols + 8 * wgMultiple - 1) / (8 * wgMultiple) :=
      (Nat.le_div_iff_mul_le (by omega)).mpr (by omega)
    unfold wgXdimOf
    constructor
    · intro h; split at h <;> omega
    · intro h; omega

/-- The work-group count is 1 exactly when one work-group covers a row. -/
theorem wgXdimOf_eq_one_iff {wgMultiple cols : ℕ} (hwg : 0 < wgMultiple)
    (hc : cols ≠ 0) : wgXdimOf wgMultiple cols = 1 ↔ cols ≤ 8 * wgMultiple := by
  rcases le_or_lt cols (8 * wgMultiple) with hle | hgt
  · have hlb : 1 ≤ (cols + 8 * wgMultiple - 1) / (8 * wgMultiple) :=
      (Nat.le_div_iff_mul_le (by omega)).mpr (by omega)
    have hub : (cols + 8 * wgMultiple - 1) / (8 * wgMultiple) < 2 :=
      (Nat.div_lt_iff_lt_mul (by omega)).mpr (by omega)
    have hd : (cols + 8 * wgMultiple - 1) / (8 * wgMultiple) = 1 := by omega
    unfold wgXdimOf
    rw [hd]
    simp [hle]
  · have h2 : 2 ≤ (cols + 8 * wgMultiple - 1) / (8 * wgMultiple) :=
      (Nat.le_div_iff_mul_le (by omega)).mpr (by omega)
    unfold wgXdimOf
    constructor
    · intro h; split at h <;> omega
    · intro h; omega

end Reduce

/-- C8 — Reduction-primitive configuration errors: for a positive work-group
multiple, `Reduce::init` fails (fatally, with a descriptive message, without
reaching any enqueue) exactly when `cols` is zero, not a multiple of 4, or
greater than `(8·wgMultiple)²`; every accepted configuration has `wgXdim = 1`
exactly when a single work-group covers a whole row (`cols ≤ 8·wgMultiple`),
and `run` enqueues the single kernel in that case and the two-level
per-group / inter-group sequence otherwise. -/
theorem reduce_init_run (wgMultiple cols rows : ℕ) (hwg : 0 < wgMultiple) :
    ((∃ e, Reduce.init wgMultiple cols rows = .error e)
      ↔ (cols = 0 ∨ cols % 4 ≠ 0 ∨ cols > (8 * wgMultiple) ^ 2))
    ∧ (∀ st, Reduce.init wgMultiple cols rows = .ok st →
        (st.wgXdim = 1 ↔ cols ≤ 8 * wgMultiple)
        ∧ Reduce.run st =
            (if st.wgXdim = 1 then [.recKernel] else [.recKernel, .groupRecKernel])) := by
  constructor
  · constructor
    · rintro ⟨e, he⟩
      unfold Reduce.init at he
      by_contra hn
      push_neg at hn
      obtain ⟨h0, h4, hmax⟩ := hn
      rw [if_neg (by rw [Reduce.wgXdimOf_eq_zero_iff hwg]; exact h0),
        if_neg (by simpa using h4), if_neg (by omega)] at he
      exact Except.noConfusion he
    · intro h
      unfold Reduce.init
      by_cases hc : cols = 0
      · rw [if_pos ((Reduce.wgXdimOf_eq_zero_iff hwg).mpr hc)]
        exact ⟨_, rfl⟩
      · rw [if_neg (by rw [Reduce.wgXdimOf_eq_zero_iff hwg]; exact hc)]
        by_cases h4 : cols % 4 ≠ 0
        · rw [if_pos h4]
          exact ⟨_, rfl⟩
        · rw [if_neg h4]
          have hmax : cols > (8 * wgMultiple) ^ 2 := by tauto
          rw [if_pos hmax]
          exact ⟨_, rfl⟩
  · intro st hst
    unfold Reduce.init at hst
    by_cases h0 : Reduce.wgXdimOf wgMultiple cols = 0
    · rw [if_pos h0] at hst; exact Except.noConfusion hst
    · rw [if_neg h0] at hst
      by_cases h4 : cols % 4 ≠ 0
      · rw [if_pos h4] at hst; exact Except.noConfusion hst
      · rw [if_neg h4] at hst
        by_cases hmax : cols > (8 * wgMultiple) ^ 2
        · rw [if_pos hmax] at hst; exact Except.noConfusion hst
        · rw [if_neg hmax] at hst
          injection hst with hst
          subst hst
          refine ⟨?_, rfl⟩
          exact Reduce.wgXdimOf_eq_one_iff hwg
            fun hc => h0 ((Reduce.wgXdimOf_eq_zero_iff hwg).mpr hc)

/-- C8 witness. -/
theorem reduce_init_run_witness :
    (0 < 64)
    ∧ ((∃ e, Reduce.init 64 1024 4 = .error e)
        ↔ ((1024 : ℕ) = 0 ∨ 1024 % 4 ≠ 0 ∨ 1024 > (8 * 64) ^ 2))
    ∧ (∀ st, Reduce.init 64 1024 4 = .ok st →
        (st.wgXdim = 1 ↔ 1024 ≤ 8 * 64)
        ∧ Reduce.run st =
            (if st.wgXdim = 1 then [.recKernel] else [.recKernel, .groupRecKernel])) :=
  ⟨by decide, (reduce_init_run 64 1024 4 (by decide)).1, (reduce_init_run 64 1024 4 (by decide)).2⟩

/-! ## Convergence controller (`ICP::run` / `ICP::check` / `ICP::buildRBC`,
algorithms.cpp)

`ICP::run` executes one unconditional registration step and then loops:
`while (check ()) ICPStep::run ()`. `ICP::check` increments the iteration
counter `k` and returns `false` (stop) when `k == max_iterations` or when
both incremental deltas are below their thresholds. `ICP::buildRBC` resets
`k` to 0. The incremental transforms `(q_k, t_k)` produced by the pipeline
steps are abstracted as an input sequence `incs`. -/

/-- `std::atan2` on the reals (the branch structure of the C library
function; the pipeline only ever calls it with `y ≥ 0`). -/
noncomputable def atan2 (y x : ℝ) : ℝ :=
  if 0 < x then Real.arctan (y / x)
  else if x < 0 then
    (if 0 ≤ y then Real.arctan (y / x) + Real.pi else Real.arctan (y / x) - Real.pi)
  else
    (if 0 < y then Real.pi / 2 else if y < 0 then -(Real.pi / 2) else 0)

/-- Eigen vector norm of a 3-vector. -/
noncomputable def norm3 (v : Fin 3 → ℝ) : ℝ :=
  Real.sqrt (v 0 * v 0 + v 1 * v 1 + v 2 * v 2)

/-- `delta_angle` in `ICP::check`: `180/π · 2 · atan2(‖q_k.vec()‖, q_k.w())`
in degrees, for a quaternion given in Eigen coefficient order
`(x, y, z, w)`. -/
noncomputable def deltaAngleDeg (q : Fin 4 → ℝ) : ℝ :=
  180 / Real.pi * 2 * atan2 (norm3 ![q 0, q 1, q 2]) (q 3)

/-- The convergence parameters handed to `ICP::init`. -/
structure ICPParams where
  maxIterations : ℕ
  angleThreshold : ℝ
  translationThreshold : ℝ

/-- The stop condition tested by `ICP::check` after it has incremented the
counter to `k'`: `k' == max_iterations`, or both the incremental angle and
the incremental translation norm are below their thresholds. `ICP::check`
returns `false` (stop) exactly when this holds. -/
def checkStop (p : ICPParams) (k' : ℕ) (qk : Fin 4 → ℝ) (tk : Fin 3 → ℝ) : Prop :=
  k' = p.maxIterations
  ∨ (deltaAngleDeg qk < p.angleThreshold ∧ norm3 tk < p.translationThreshold)

/-- Value of the iteration counter `k` after `n` calls of `ICP::check`
following a `buildRBC` (which resets `k` to 0); each check increments `k`
once, and there is exactly one check per executed step. The counter is
abstracted as an unbounded natural here; it agrees with the source's 32-bit
unsigned counter for the first `2^32 - 1` checks (see `kAfter32` for the
width-faithful counter, which matters only for the iteration-cap edge
case). -/
def kAfter : ℕ → ℕ
  | 0 => 0
  | n + 1 => kAfter n + 1

/-- `runsPast p incs n` holds when the loop in `ICP::run` executes at least
`n + 1` steps on the incremental-transform trace `incs`: the first step is
unconditional, and step `n + 2` runs exactly when the check after step
`n + 1` (which increments `k` from `kAfter n` and reads `incs n`) returns
`true` (continue). -/
def runsPast (p : ICPParams) (incs : ℕ → (Fin 4 → ℝ) × (Fin 3 → ℝ)) : ℕ → Prop
  | 0 => True
  | n + 1 => runsPast p incs n ∧ ¬ checkStop p (kAfter n + 1) (incs n).1 (incs n).2

/-- The registration performs exactly `n + 1` steps: it reaches step `n + 1`
and the check after it returns `false`. -/
def stopsAfter (p : ICPParams) (incs : ℕ → (Fin 4 → ℝ) × (Fin 3 → ℝ)) (n : ℕ) : Prop :=
  runsPast p incs n ∧ checkStop p (kAfter n + 1) (incs n).1 (incs n).2

/-- C1 — Convergence controller: the counter is `n` after `n` checks (reset
to 0 at `buildRBC`, incremented once per step), and the registration halts
after step `n + 1` exactly when that step is reached and either the counter
has reached `max_iterations` or both the incremental rotation angle
`2·atan2(‖q_k.xyz‖, q_k.w)` in degrees is below `angle_threshold` and the
incremental translation norm is below `translation_threshold`; otherwise
another step is executed. -/
theorem convergence_controller (p : ICPParams)
    (incs : ℕ → (Fin 4 → ℝ) × (Fin 3 → ℝ)) (n : ℕ) :
    kAfter n = n
    ∧ (stopsAfter p incs n ↔
        runsPast p incs n
        ∧ (n + 1 = p.maxIterations
            ∨ (deltaAngleDeg (incs n).1 < p.angleThreshold
                ∧ norm3 (incs n).2 < p.translationThreshold)))
    ∧ (¬ stopsAfter p incs n → runsPast p incs n → runsPast p incs (n + 1)) := by
  have hk : ∀ m, kAfter m = m := by
    intro m
    induction m with
    | zero => rfl
    | succ m ih => rw [kAfter, ih]
  refine ⟨hk n, ?_, ?_⟩
  · rw [stopsAfter, checkStop, hk n]
  · intro hns hr
    exact ⟨hr, fun hstop => hns ⟨hr, hstop⟩⟩

/-- C1 witness. -/
theorem convergence_controller_witness :
    (¬ stopsAfter ⟨5, -1, -1⟩ (fun _ => (![0, 0, 0, 1], ![0, 0, 0])) 0)
    ∧ runsPast ⟨5, -1, -1⟩ (fun _ => (![0, 0, 0, 1], ![0, 0, 0])) 0
    ∧ runsPast ⟨5, -1, -1⟩ (fun _ => (![0, 0, 0, 1], ![0, 0, 0])) 1 := by
  have hangle : deltaAngleDeg ![0, 0, 0, 1] = 0 := by
    show 180 / Real.pi * 2 * atan2 (norm3 ![0, 0, 0]) 1 = 0
    have hn : norm3 ![(0 : ℝ), 0, 0] = 0 := by
      show Real.sqrt ((0 : ℝ) * 0 + 0 * 0 + 0 * 0) = 0
      simp
    rw [hn]
    unfold atan2
    rw [if_pos (by norm_num : (0 : ℝ) < 1)]
    norm_num [Real.arctan_zero]
  have hstop : ¬ checkStop ⟨5, -1, -1⟩ (kAfter 0 + 1) ![0, 0, 0, 1] ![0, 0, 0] := by
    rintro (h | ⟨h1, _⟩)
    · exact absurd h (by decide)
    · exact absurd (hangle ▸ h1) (by norm_num : ¬ ((0 : ℝ) < -1))
  exact ⟨fun h => hstop h.2, trivial,
    (convergence_controller ⟨5, -1, -1⟩ (fun _ => (![0, 0, 0, 1], ![0, 0, 0])) 0).2.2
      (fun h => hstop h.2) trivial⟩

/-- Value of the source's iteration counter `k` after `n` calls of
`ICP::check` following a `buildRBC` reset, at its source width: `k` is an
`unsigned int` (as is `max_iterations`), so the `k++` in `ICP::check` wraps
modulo `2^32`. -/
def kAfter32 : ℕ → ℕ
  | 0 => 0
  | n + 1 => (kAfter32 n + 1) % 2 ^ 32

/-- The wrapped counter after `n` checks is `n` reduced modulo `2^32`. -/
theorem kAfter32_eq (n : ℕ) : kAfter32 n = n % 2 ^ 32 := by
  induction n with
  | zero => rfl
  | succ m ih =>
    rw [kAfter32, ih]
    omega

/-- The loop of `ICP::run` with the iteration counter at its source width:
`runsPast32 p incs n` holds when at least `n + 1` steps execute; the check
after step `n + 1` compares the wrapped increment `(k + 1) % 2^32` against
`max_iterations`. -/
def runsPast32 (p : ICPParams) (incs : ℕ → (Fin 4 → ℝ) × (Fin 3 → ℝ)) : ℕ → Prop
  | 0 => True
  | n + 1 => runsPast32 p incs n
      ∧ ¬ checkStop p ((kAfter32 n + 1) % 2 ^ 32) (incs n).1 (incs n).2

/-- The registration (with the 32-bit counter) performs exactly `n + 1`
steps: it reaches step `n + 1` and the check after it returns `false`. -/
def stopsAfter32 (p : ICPParams) (incs : ℕ → (Fin 4 → ℝ) × (Fin 3 → ℝ)) (n : ℕ) : Prop :=
  runsPast32 p incs n ∧ checkStop p ((kAfter32 n + 1) % 2 ^ 32) (incs n).1 (incs n).2

/-- The identity incremental quaternion `(0, 0, 0, 1)` has zero angle
delta: its vector part has norm 0 and `atan2 0 1 = 0`. -/
theorem deltaAngleDeg_identity : deltaAngleDeg ![0, 0, 0, 1] = 0 := by
  show 180 / Real.pi * 2 * atan2 (norm3 ![0, 0, 0]) 1 = 0
  have hn : norm3 ![(0 : ℝ), 0, 0] = 0 := by
    show Real.sqrt ((0 : ℝ) * 0 + 0 * 0 + 0 * 0) = 0
    simp
  rw [hn]
  unfold atan2
  rw [if_pos (by norm_num : (0 : ℝ) < 1)]
  norm_num [Real.arctan_zero]

/-- On a trace whose incremental transforms never meet thresholds of `-1`,
the `max_iterations = 0` run is still going after any number of steps below
the counter width. -/
theorem runsPast32_const {n : ℕ} (hn : n < 2 ^ 32) :
    runsPast32 ⟨0, -1, -1⟩ (fun _ => (![0, 0, 0, 1], ![0, 0, 0])) n := by
  induction n with
  | zero => trivial
  | succ m ih =>
    refine ⟨ih (by omega), ?_⟩
    rintro (h | ⟨h1, _⟩)
    · have h' : (m % 2 ^ 32 + 1) % 2 ^ 32 = 0 := by
        rw [kAfter32_eq] at h
        exact h
      omega
    · exact absurd (deltaAngleDeg_identity ▸ h1) (by norm_num : ¬ ((0 : ℝ) < -1))

/-- C10 counterexample: with `max_iterations = 0` and thresholds of `-1`
(which the identity incremental transforms of this trace never meet, since
their angle and translation deltas are `0`), the run nevertheless halts: at
the `2^32`-th check the `unsigned int` counter wraps to `0`, so the equality
test `k == max_iterations` fires. The claim's assertions that the test
"never fires" and that termination "depends solely on the thresholds" are
false of the program. -/
theorem iteration_cap_edge_counterexample :
    stopsAfter32 ⟨0, -1, -1⟩ (fun _ => (![0, 0, 0, 1], ![0, 0, 0])) (2 ^ 32 - 1)
    ∧ ¬ (deltaAngleDeg ![0, 0, 0, 1] < (-1 : ℝ) ∧ norm3 ![0, 0, 0] < (-1 : ℝ)) := by
  constructor
  · refine ⟨runsPast32_const (by norm_num), Or.inl ?_⟩
    rw [kAfter32_eq]
    show ((2 ^ 32 - 1) % 2 ^ 32 + 1) % 2 ^ 32 = 0
    omega
  · rintro ⟨h1, _⟩
    exact absurd (deltaAngleDeg_identity ▸ h1) (by norm_num : ¬ ((0 : ℝ) < -1))

/-- C10 (amended) — Iteration-cap edge case with the counter at its source
width: every run performs at least one step (`runsPast32 _ _ 0` holds
unconditionally); when `max_iterations = M + 1` (a representable value,
`M + 1 < 2^32`) the loop never gets past `M + 1` steps — the check that
increments `k` to `max_iterations` stops it; and when `max_iterations = 0`
the equality test `k == max_iterations` does not fire at any of the first
`2^32 - 1` checks (the wrapped counter is `≥ 1` there), so up to that point
stopping depends solely on the angle and translation thresholds — but at
the `2^32`-th check the counter wraps to `0` and the equality test fires
regardless of the thresholds. -/
theorem iteration_cap_edge_wrapped (p : ICPParams)
    (incs : ℕ → (Fin 4 → ℝ) × (Fin 3 → ℝ)) :
    runsPast32 p incs 0
    ∧ (∀ M, p.maxIterations = M + 1 → M + 1 < 2 ^ 32 → ¬ runsPast32 p incs (M + 1))
    ∧ (p.maxIterations = 0 →
        (∀ n, n + 1 < 2 ^ 32 → ∀ (qk : Fin 4 → ℝ) (tk : Fin 3 → ℝ),
            (checkStop p ((kAfter32 n + 1) % 2 ^ 32) qk tk
              ↔ (deltaAngleDeg qk < p.angleThreshold
                  ∧ norm3 tk < p.translationThreshold)))
        ∧ (kAfter32 (2 ^ 32 - 1) + 1) % 2 ^ 32 = p.maxIterations) := by
  refine ⟨trivial, ?_, ?_⟩
  · intro M hM hlt hrun
    have hk : (kAfter32 M + 1) % 2 ^ 32 = M + 1 := by
      rw [kAfter32_eq]
      omega
    exact hrun.2 (Or.inl (by rw [hk, hM]))
  · intro h0
    constructor
    · intro n hn qk tk
      rw [checkStop, h0]
      refine or_iff_right ?_
      rw [kAfter32_eq]
      omega
    · rw [kAfter32_eq, h0]
      omega

/-- C10 witness. -/
theorem iteration_cap_edge_wrapped_witness :
    ((⟨3, 1, 1⟩ : ICPParams).maxIterations = 2 + 1)
    ∧ (2 + 1 < 2 ^ 32)
    ∧ ¬ runsPast32 ⟨3, 1, 1⟩ (fun _ => (![0, 0, 0, 1], ![0, 0, 0])) (2 + 1)
    ∧ ((⟨0, 1, 1⟩ : ICPParams).maxIterations = 0)
    ∧ (4 + 1 < 2 ^ 32)
    ∧ (checkStop ⟨0, 1, 1⟩ ((kAfter32 4 + 1) % 2 ^ 32) ![0, 0, 0, 1] ![0, 0, 0]
        ↔ (deltaAngleDeg ![0, 0, 0, 1] < (1 : ℝ) ∧ norm3 ![0, 0, 0] < (1 : ℝ)))
    ∧ (kAfter32 (2 ^ 32 - 1) + 1) % 2 ^ 32 = (⟨0, 1, 1⟩ : ICPParams).maxIterations :=
  ⟨rfl, by norm_num,
    (iteration_cap_edge_wrapped ⟨3, 1, 1⟩ (fun _ => (![0, 0, 0, 1], ![0, 0, 0]))).2.1 2
      rfl (by norm_num),
    rfl, by norm_num,
    ((iteration_cap_edge_wrapped ⟨0, 1, 1⟩
      (fun _ => (![0, 0, 0, 1], ![0, 0, 0]))).2.2 rfl).1 4 (by norm_num)
      ![0, 0, 0, 1] ![0, 0, 0],
    ((iteration_cap_edge_wrapped ⟨0, 1, 1⟩
      (fun _ => (![0, 0, 0, 1], ![0, 0, 0]))).2.2 rfl).2⟩

/-! ## Registration step (`ICPStep<CR,CW>::init` / `::run`, algorithms.cpp)

The host-side mathematics of one registration step, over `ℝ`. The GPU stages
(correspondence search, centroid, deviation, covariance kernels) produce the
readbacks `mean` (8 floats) and `Sij` (11 floats), which are inputs here; the
Eigen singular value decomposition is an external library routine and enters
as an oracle `svd` returning the factors `(U, V)` that `ICPStep::run`
consumes. -/

/-- Conversion of a rotation matrix to a quaternion
(`Eigen::Quaternionf (Matrix3f)`, the external library routine used at
`q = Eigen::Quaternionf (R)`): Shepperd's branch on the trace. Output in
Eigen coefficient order `(x, y, z, w)`. -/
noncomputable def quatFromMat (m : Matrix (Fin 3) (Fin 3) ℝ) : Fin 4 → ℝ :=
  let tr := m 0 0 + m 1 1 + m 2 2
  if 0 < tr then
    let t := Real.sqrt (tr + 1)
    let t2 := 0.5 / t
    ![(m 2 1 - m 1 2) * t2, (m 0 2 - m 2 0) * t2, (m 1 0 - m 0 1) * t2, 0.5 * t]
  else
    let i1 : Fin 3 := if m 1 1 > m 0 0 then 1 else 0
    let i : Fin 3 := if m 2 2 > m i1 i1 then 2 else i1
    let j : Fin 3 := ⟨(i.val + 1) % 3, Nat.mod_lt _ (by norm_num)⟩
    let k : Fin 3 := ⟨(j.val + 1) % 3, Nat.mod_lt _ (by norm_num)⟩
    let t := Real.sqrt (m i i - m j j - m k k + 1)
    let t2 := 0.5 / t
    fun idx : Fin 4 =>
      if idx.val = 3 then (m k j - m j k) * t2
      else if idx.val = i.val then 0.5 * t
      else if idx.val = j.val then (m j i + m i j) * t2
      else (m k i + m i k) * t2

/-- The cumulative transform state held by an `ICPStep` object:
rotation matrix `R`, quaternion `q`, translation `t`, scale `s`. -/
structure CumTransform where
  R : Matrix (Fin 3) (Fin 3) ℝ
  q : Fin 4 → ℝ
  t : Fin 3 → ℝ
  s : ℝ

/-- Everything a single `ICPStep::run` call produces: the updated cumulative
transform, the incremental quantities `(R_k, q_k, t_k, s_k)`, and the eight
floats written back to the device-resident transform buffer `dBufferIOT`
(consumed by the next iteration's transform stage through the aliasing
`transform.D_IN_T = dBufferIOT`). -/
structure StepResult where
  cum : CumTransform
  Rk : Matrix (Fin 3) (Fin 3) ℝ
  qk : Fin 4 → ℝ
  tk : Fin 3 → ℝ
  sk : ℝ
  buffer : Fin 8 → ℝ

/-- `ICPStep::init` (algorithms.cpp, both strategies): the cumulative state is
set to `R = I`, `q = Quaternionf(R)`, `t = 0`, `s = 1`, and the transform
buffer is loaded with `T0 = {0, 0, 0, 1, 0, 0, 0, 1}`. -/
noncomputable def ICPStepInit : CumTransform × (Fin 8 → ℝ) :=
  (⟨1, quatFromMat 1, fun _ => 0, 1⟩, ![0, 0, 0, 1, 0, 0, 0, 1])

/-- The 3×3 cross-covariance matrix mapped from the 11-float readback
(`Eigen::Map` with `Stride<1,3>`, i.e. `S(i,j) = Sij[3i+j]`). -/
def Smat (Sij : Fin 11 → ℝ) : Matrix (Fin 3) (Fin 3) ℝ :=
  Matrix.of ![![Sij 0, Sij 1, Sij 2], ![Sij 3, Sij 4, Sij 5], ![Sij 6, Sij 7, Sij 8]]

/-- The incremental rotation of the closed-form strategy
(`ICPStep<EIGEN,REGULAR>::run`): `R_k = V·Uᵗ`; if `det R_k < 0`, recompute
`R_k = V·B·Uᵗ` where `B` is the identity with `B(2,2) = det R_k`. -/
noncomputable def eigenRk (U V : Matrix (Fin 3) (Fin 3) ℝ) : Matrix (Fin 3) (Fin 3) ℝ :=
  if (V * Uᵀ).det < 0 then
    V * Matrix.of ![![1, 0, 0], ![0, 1, 0], ![0, 0, (V * Uᵀ).det]] * Uᵀ
  else
    V * Uᵀ

/-- `ICPStep<EIGEN,REGULAR>::run` (algorithms.cpp), host-side mathematics:
`s_k = √(Sij[9]/Sij[10])` (no guard on the denominator), means mapped from
the readback, `R_k` from the SVD factors, `q_k = Quaternionf(R_k)`,
`t_k = mf − s_k·R_k·mm`, then the cumulative update `R ← R_k·R`,
`q = Quaternionf(R)`, `t ← s_k·R_k·t + t_k`, `s ← s_k·s`, and the write of
`(q, t, s)` to the transform buffer (`t.homogeneous()` with its fourth
entry overwritten by `s`). -/
noncomputable def ICPStepEigenRun
    (svd : Matrix (Fin 3) (Fin 3) ℝ → Matrix (Fin 3) (Fin 3) ℝ × Matrix (Fin 3) (Fin 3) ℝ)
    (Sij : Fin 11 → ℝ) (mean : Fin 8 → ℝ) (cum : CumTransform) : StepResult :=
  let sk := Real.sqrt (Sij 9 / Sij 10)
  let mf : Fin 3 → ℝ := ![mean 0, mean 1, mean 2]
  let mm : Fin 3 → ℝ := ![mean 4, mean 5, mean 6]
  let U := (svd (Smat Sij)).1
  let V := (svd (Smat Sij)).2
  let Rk := eigenRk U V
  let qk := quatFromMat Rk
  let tk := mf - sk • Rk.mulVec mm
  let R' := Rk * cum.R
  let q' := quatFromMat R'
  let t' := sk • Rk.mulVec cum.t + tk
  let s' := sk * cum.s
  ⟨⟨R', q', t', s'⟩, Rk, qk, tk, sk,
    ![q' 0, q' 1, q' 2, q' 3, t' 0, t' 1, t' 2, s']⟩

/-- `ICPStep<POWER_METHOD,REGULAR>::run` (algorithms.cpp), host-side part:
the device returns the 8-float record `Tk = (q_k, t_k with s_k in its last
slot)`; the host reads `q_k = Quaternionf(Tk)`, `R_k = q_k.toRotationMatrix()`,
`t_k = Tk[4..6]`, `s_k = Tk[7]`, performs the same cumulative update as the
closed-form path, and writes `(q, t, s)` to the transform buffer. -/
noncomputable def ICPStepPowerRun (Tk : Fin 8 → ℝ) (cum : CumTransform) : StepResult :=
  let qk : Fin 4 → ℝ := ![Tk 0, Tk 1, Tk 2, Tk 3]
  let Rk := quatToRotMat qk
  let tk : Fin 3 → ℝ := ![Tk 4, Tk 5, Tk 6]
  let sk := Tk 7
  let R' := Rk * cum.R
  let q' := quatFromMat R'
  let t' := sk • Rk.mulVec cum.t + tk
  let s' := sk * cum.s
  ⟨⟨R', q', t', s'⟩, Rk, qk, tk, sk,
    ![q' 0, q' 1, q' 2, q' 3, t' 0, t' 1, t' 2, s']⟩

/-! ### Rotation-matrix facts used by the step theorems -/

/-- The identity rotation converts to the identity quaternion `(0,0,0,1)`. -/
theorem quatFromMat_one : quatFromMat 1 = ![0, 0, 0, 1] := by
  have h00 : (1 : Matrix (Fin 3) (Fin 3) ℝ) 0 0 = 1 := Matrix.one_apply_eq 0
  have h11 : (1 : Matrix (Fin 3) (Fin 3) ℝ) 1 1 = 1 := Matrix.one_apply_eq 1
  have h22 : (1 : Matrix (Fin 3) (Fin 3) ℝ) 2 2 = 1 := Matrix.one_apply_eq 2
  have hs : Real.sqrt ((1 : ℝ) + 1 + 1 + 1) = 2 := by
    rw [show (1 : ℝ) + 1 + 1 + 1 = 2 ^ 2 by norm_num]
    exact Real.sqrt_sq (by norm_num)
  funext idx
  rw [quatFromMat]
  simp only [h00, h11, h22, Matrix.one_apply_ne (by decide : (2 : Fin 3) ≠ 1),
    Matrix.one_apply_ne (by decide : (1 : Fin 3) ≠ 2),
    Matrix.one_apply_ne (by decide : (0 : Fin 3) ≠ 2),
    Matrix.one_apply_ne (by decide : (2 : Fin 3) ≠ 0),
    Matrix.one_apply_ne (by decide : (1 : Fin 3) ≠ 0),
    Matrix.one_apply_ne (by decide : (0 : Fin 3) ≠ 1)]
  rw [if_pos (by norm_num : (0 : ℝ) < 1 + 1 + 1), hs]
  fin_cases idx <;> norm_num

/-- The matrix `B` built in the determinant-correction branch is the diagonal
matrix `diag(1, 1, d)`. -/
theorem ofB_eq_diagonal (d : ℝ) :
    Matrix.of ![![1, 0, 0], ![0, 1, 0], ![0, 0, d]]
      = Matrix.diagonal ![1, 1, d] := by
  ext i j
  fin_cases i <;> fin_cases j <;> rfl

/-- Orthogonal 3×3 matrices have determinant `1` or `-1`. -/
theorem det_of_orth {U : Matrix (Fin 3) (Fin 3) ℝ} (hU : Uᵀ * U = 1) :
    U.det = 1 ∨ U.det = -1 := by
  have h : U.det * U.det = 1 := by
    have := congrArg Matrix.det hU
    rwa [Matrix.det_mul, Matrix.det_transpose, Matrix.det_one] at this
  exact mul_self_eq_one_iff.mp h

/-- The corrected rotation of the closed-form strategy is orthogonal. -/
theorem eigenRk_orth {U V : Matrix (Fin 3) (Fin 3) ℝ}
    (hU : Uᵀ * U = 1) (hV : Vᵀ * V = 1) :
    (eigenRk U V)ᵀ * eigenRk U V = 1 := by
  have hUU : U * Uᵀ = 1 := Matrix.mul_eq_one_comm.mp hU
  rw [eigenRk]
  split
  · rw [ofB_eq_diagonal]
    have hBB : (Matrix.diagonal ![1, 1, (V * Uᵀ).det])ᵀ
        * Matrix.diagonal ![1, 1, (V * Uᵀ).det]
        = Matrix.diagonal (![1, 1, (V * Uᵀ).det] * ![1, 1, (V * Uᵀ).det]) := by
      rw [Matrix.diagonal_transpose, Matrix.diagonal_mul_diagonal]
      rfl
    calc (V * Matrix.diagonal ![1, 1, (V * Uᵀ).det] * Uᵀ)ᵀ
          * (V * Matrix.diagonal ![1, 1, (V * Uᵀ).det] * Uᵀ)
        = U * ((Matrix.diagonal ![1, 1, (V * Uᵀ).det])ᵀ * ((Vᵀ * V)
            * (Matrix.diagonal ![1, 1, (V * Uᵀ).det] * Uᵀ))) := by
          rw [Matrix.transpose_mul, Matrix.transpose_mul, Matrix.transpose_transpose]
          noncomm_ring
      _ = U * ((Matrix.diagonal ![1, 1, (V * Uᵀ).det])ᵀ
            * Matrix.diagonal ![1, 1, (V * Uᵀ).det]) * Uᵀ := by
          rw [hV, one_mul]
          noncomm_ring
      _ = U * Matrix.diagonal (![1, 1, (V * Uᵀ).det] * ![1, 1, (V * Uᵀ).det]) * Uᵀ := by
          rw [hBB]
      _ = 1 := by
          have hd : (V * Uᵀ).det * (V * Uᵀ).det = 1 := by
            rcases det_of_orth hU with h | h <;> rcases det_of_orth hV with h' | h' <;>
              simp [Matrix.det_mul, Matrix.det_transpose, h, h']
          have hv1 : (![1, 1, (V * Uᵀ).det] * ![1, 1, (V * Uᵀ).det] : Fin 3 → ℝ)
              = (1 : Fin 3 → ℝ) := by
            funext i
            fin_cases i
            · show (1 : ℝ) * 1 = 1; norm_num
            · show (1 : ℝ) * 1 = 1; norm_num
            · exact hd
          rw [hv1,
            show Matrix.diagonal (1 : Fin 3 → ℝ) = (1 : Matrix (Fin 3) (Fin 3) ℝ) from
              Matrix.diagonal_one,
            mul_one, hUU]
  · calc (V * Uᵀ)ᵀ * (V * Uᵀ)
        = U * (Vᵀ * V) * Uᵀ := by
          rw [Matrix.transpose_mul, Matrix.transpose_transpose]
          noncomm_ring
      _ = 1 := by rw [hV, mul_one, hUU]

/-- The corrected rotation of the closed-form strategy is proper
(determinant 1): the flip branch restores a negative determinant. -/
theorem eigenRk_det {U V : Matrix (Fin 3) (Fin 3) ℝ}
    (hU : Uᵀ * U = 1) (hV : Vᵀ * V = 1) :
    (eigenRk U V).det = 1 := by
  have hd : (V * Uᵀ).det * (V * Uᵀ).det = 1 := by
    rcases det_of_orth hU with h | h <;> rcases det_of_orth hV with h' | h' <;>
      simp [Matrix.det_mul, Matrix.det_transpose, h, h']
  rw [eigenRk]
  split
  · rw [ofB_eq_diagonal, Matrix.det_mul, Matrix.det_mul, Matrix.det_diagonal]
    have hprod : (∏ i, (![1, 1, (V * Uᵀ).det] : Fin 3 → ℝ) i) = (V * Uᵀ).det := by
      rw [Fin.prod_univ_three]
      show (1 : ℝ) * 1 * (V * Uᵀ).det = (V * Uᵀ).det
      ring
    rw [hprod]
    calc V.det * (V * Uᵀ).det * Uᵀ.det
        = (V * Uᵀ).det * (V * Uᵀ).det := by
          rw [Matrix.det_mul]; ring
      _ = 1 := hd
  · rename_i h
    push_neg at h
    rcases mul_self_eq_one_iff.mp hd with h1 | h1
    · exact h1
    · exact absurd (h1 ▸ h) (by norm_num)

/-- The homogeneous (degree-2) rotation matrix of a quaternion; equal to
`quatToRotMat` exactly on unit quaternions, but with polynomial identities
that hold over any commutative ring. -/
def homRotMat {K : Type} [CommRing K] (q : Fin 4 → K) : Matrix (Fin 3) (Fin 3) K :=
  !![q 3 * q 3 + q 0 * q 0 - q 1 * q 1 - q 2 * q 2, 2 * (q 0 * q 1 - q 3 * q 2),
       2 * (q 0 * q 2 + q 3 * q 1);
     2 * (q 0 * q 1 + q 3 * q 2), q 3 * q 3 - q 0 * q 0 + q 1 * q 1 - q 2 * q 2,
       2 * (q 1 * q 2 - q 3 * q 0);
     2 * (q 0 * q 2 - q 3 * q 1), 2 * (q 1 * q 2 + q 3 * q 0),
       q 3 * q 3 - q 0 * q 0 - q 1 * q 1 + q 2 * q 2]

/-- On a unit quaternion the Eigen rotation matrix agrees with the
homogeneous form. -/
theorem quatToRotMat_eq_homRotMat {q : Fin 4 → ℝ}
    (h : q 0 * q 0 + q 1 * q 1 + q 2 * q 2 + q 3 * q 3 = 1) :
    quatToRotMat q = homRotMat q := by
  ext i j
  fin_cases i <;> fin_cases j <;> simp [quatToRotMat, homRotMat] <;>
    linear_combination -h

/-- `homRotMatᵀ · homRotMat = ‖q‖⁴ · I`, a polynomial identity. -/
theorem homRotMat_transpose_mul (q : Fin 4 → ℝ) :
    (homRotMat q)ᵀ * homRotMat q
      = (q 0 * q 0 + q 1 * q 1 + q 2 * q 2 + q 3 * q 3) ^ 2
          • (1 : Matrix (Fin 3) (Fin 3) ℝ) := by
  simp only [homRotMat]
  rw [show (!![q 3 * q 3 + q 0 * q 0 - q 1 * q 1 - q 2 * q 2, 2 * (q 0 * q 1 - q 3 * q 2),
          2 * (q 0 * q 2 + q 3 * q 1);
        2 * (q 0 * q 1 + q 3 * q 2), q 3 * q 3 - q 0 * q 0 + q 1 * q 1 - q 2 * q 2,
          2 * (q 1 * q 2 - q 3 * q 0);
        2 * (q 0 * q 2 - q 3 * q 1), 2 * (q 1 * q 2 + q 3 * q 0),
          q 3 * q 3 - q 0 * q 0 - q 1 * q 1 + q 2 * q 2] : Matrix (Fin 3) (Fin 3) ℝ)ᵀ
      = !![q 3 * q 3 + q 0 * q 0 - q 1 * q 1 - q 2 * q 2, 2 * (q 0 * q 1 + q 3 * q 2),
            2 * (q 0 * q 2 - q 3 * q 1);
          2 * (q 0 * q 1 - q 3 * q 2), q 3 * q 3 - q 0 * q 0 + q 1 * q 1 - q 2 * q 2,
            2 * (q 1 * q 2 + q 3 * q 0);
          2 * (q 0 * q 2 + q 3 * q 1), 2 * (q 1 * q 2 - q 3 * q 0),
            q 3 * q 3 - q 0 * q 0 - q 1 * q 1 + q 2 * q 2] from by
    ext i j; fin_cases i <;> fin_cases j <;> rfl]
  rw [Matrix.mul_fin_three]
  ext i j
  fin_cases i <;> fin_cases j <;>
    simp [Matrix.smul_apply, Matrix.one_apply] <;> ring

/-- `det homRotMat = ‖q‖⁶`, a polynomial identity. -/
theorem homRotMat_det (q : Fin 4 → ℝ) :
    (homRotMat q).det
      = (q 0 * q 0 + q 1 * q 1 + q 2 * q 2 + q 3 * q 3) ^ 3 := by
  rw [Matrix.det_fin_three]
  simp [homRotMat]
  ring

/-- The Eigen rotation matrix of a unit quaternion is orthogonal. -/
theorem quatToRotMat_orth {q : Fin 4 → ℝ}
    (h : q 0 * q 0 + q 1 * q 1 + q 2 * q 2 + q 3 * q 3 = 1) :
    (quatToRotMat q)ᵀ * quatToRotMat q = 1 := by
  rw [quatToRotMat_eq_homRotMat h, homRotMat_transpose_mul, h]
  norm_num

/-- The Eigen rotation matrix of a unit quaternion has determinant 1. -/
theorem quatToRotMat_det {q : Fin 4 → ℝ}
    (h : q 0 * q 0 + q 1 * q 1 + q 2 * q 2 + q 3 * q 3 = 1) :
    (quatToRotMat q).det = 1 := by
  rw [quatToRotMat_eq_homRotMat h, homRotMat_det, h]
  norm_num

/-- Orthogonality is preserved by matrix products. -/
theorem orth_mul {A B : Matrix (Fin 3) (Fin 3) ℝ}
    (hA : Aᵀ * A = 1) (hB : Bᵀ * B = 1) : (A * B)ᵀ * (A * B) = 1 := by
  rw [Matrix.transpose_mul]
  calc Bᵀ * Aᵀ * (A * B) = Bᵀ * (Aᵀ * A) * B := by noncomm_ring
    _ = 1 := by rw [hA, mul_one, hB]

/-- C2 — Cumulative transform composition: at the start of a registration the
cumulative transform is `R = I`, `q = (0,0,0,1)`, `t = 0`, `s = 1` and the
device transform buffer holds `T0 = (0,0,0,1,0,0,0,1)`; after every
iteration, under both rotation strategies, the cumulative state is updated by
exactly `R ← R_k·R`, `t ← s_k·R_k·t + t_k`, `s ← s_k·s` with
`q = Quaternionf(R)`, and the updated `(q, t, s)` is the new content of the
device-resident transform buffer consumed by the next iteration's transform
stage. -/
theorem cumulative_composition :
    (ICPStepInit.1.R = 1 ∧ ICPStepInit.1.q = ![0, 0, 0, 1]
      ∧ ICPStepInit.1.t = (fun _ => 0) ∧ ICPStepInit.1.s = 1
      ∧ ICPStepInit.2 = ![0, 0, 0, 1, 0, 0, 0, 1])
    ∧ (∀ svd Sij mean cum,
        (ICPStepEigenRun svd Sij mean cum).cum.R
            = (ICPStepEigenRun svd Sij mean cum).Rk * cum.R
        ∧ (ICPStepEigenRun svd Sij mean cum).cum.t
            = (ICPStepEigenRun svd Sij mean cum).sk
                • (ICPStepEigenRun svd Sij mean cum).Rk.mulVec cum.t
              + (ICPStepEigenRun svd Sij mean cum).tk
        ∧ (ICPStepEigenRun svd Sij mean cum).cum.s
            = (ICPStepEigenRun svd Sij mean cum).sk * cum.s
        ∧ (ICPStepEigenRun svd Sij mean cum).cum.q
            = quatFromMat ((ICPStepEigenRun svd Sij mean cum).cum.R)
        ∧ (ICPStepEigenRun svd Sij mean cum).buffer
            = ![(ICPStepEigenRun svd Sij mean cum).cum.q 0,
                (ICPStepEigenRun svd Sij mean cum).cum.q 1,
                (ICPStepEigenRun svd Sij mean cum).cum.q 2,
                (ICPStepEigenRun svd Sij mean cum).cum.q 3,
                (ICPStepEigenRun svd Sij mean cum).cum.t 0,
                (ICPStepEigenRun svd Sij mean cum).cum.t 1,
                (ICPStepEigenRun svd Sij mean cum).cum.t 2,
                (ICPStepEigenRun svd Sij mean cum).cum.s])
    ∧ (∀ Tk cum,
        (ICPStepPowerRun Tk cum).cum.R
            = (ICPStepPowerRun Tk cum).Rk * cum.R
        ∧ (ICPStepPowerRun Tk cum).cum.t
            = (ICPStepPowerRun Tk cum).sk
                • (ICPStepPowerRun Tk cum).Rk.mulVec cum.t
              + (ICPStepPowerRun Tk cum).tk
        ∧ (ICPStepPowerRun Tk cum).cum.s
            = (ICPStepPowerRun Tk cum).sk * cum.s
        ∧ (ICPStepPowerRun Tk cum).cum.q
            = quatFromMat ((ICPStepPowerRun Tk cum).cum.R)
        ∧ (ICPStepPowerRun Tk cum).buffer
            = ![(ICPStepPowerRun Tk cum).cum.q 0,
                (ICPStepPowerRun Tk cum).cum.q 1,
                (ICPStepPowerRun Tk cum).cum.q 2,
                (ICPStepPowerRun Tk cum).cum.q 3,
                (ICPStepPowerRun Tk cum).cum.t 0,
                (ICPStepPowerRun Tk cum).cum.t 1,
                (ICPStepPowerRun Tk cum).cum.t 2,
                (ICPStepPowerRun Tk cum).cum.s]) :=
  ⟨⟨rfl, quatFromMat_one, rfl, rfl, rfl⟩,
    fun _ _ _ _ => ⟨rfl, rfl, rfl, rfl, rfl⟩,
    fun _ _ => ⟨rfl, rfl, rfl, rfl, rfl⟩⟩

/-- C3 — Closed-form rotation extraction: when the SVD oracle returns
orthogonal factors `(U, V)` for the mapped covariance matrix, the step's
incremental rotation is `V·Uᵗ`, recomputed as `V·diag(1,1,det)·Uᵗ` when the
determinant is negative, and is a proper rotation (`R_kᵗR_k = I`,
`det R_k = 1`); the incremental scale is `√(Sij[9]/Sij[10])` (the two
scale-constituent entries of the covariance bundle) and the incremental
translation is `t_k = mean_fixed − s_k·R_k·mean_moving`. -/
theorem rotation_extraction_closed_form
    (svd : Matrix (Fin 3) (Fin 3) ℝ → Matrix (Fin 3) (Fin 3) ℝ × Matrix (Fin 3) (Fin 3) ℝ)
    (Sij : Fin 11 → ℝ) (mean : Fin 8 → ℝ) (cum : CumTransform)
    (hU : ((svd (Smat Sij)).1)ᵀ * (svd (Smat Sij)).1 = 1)
    (hV : ((svd (Smat Sij)).2)ᵀ * (svd (Smat Sij)).2 = 1) :
    (ICPStepEigenRun svd Sij mean cum).Rk
        = (if ((svd (Smat Sij)).2 * ((svd (Smat Sij)).1)ᵀ).det < 0 then
            (svd (Smat Sij)).2
              * Matrix.of ![![1, 0, 0], ![0, 1, 0],
                  ![0, 0, ((svd (Smat Sij)).2 * ((svd (Smat Sij)).1)ᵀ).det]]
              * ((svd (Smat Sij)).1)ᵀ
          else (svd (Smat Sij)).2 * ((svd (Smat Sij)).1)ᵀ)
    ∧ ((ICPStepEigenRun svd Sij mean cum).Rk)ᵀ * (ICPStepEigenRun svd Sij mean cum).Rk = 1
    ∧ ((ICPStepEigenRun svd Sij mean cum).Rk).det = 1
    ∧ (ICPStepEigenRun svd Sij mean cum).sk = Real.sqrt (Sij 9 / Sij 10)
    ∧ (ICPStepEigenRun svd Sij mean cum).tk
        = ![mean 0, mean 1, mean 2]
          - (ICPStepEigenRun svd Sij mean cum).sk
              • ((ICPStepEigenRun svd Sij mean cum).Rk).mulVec ![mean 4, mean 5, mean 6] :=
  ⟨rfl, eigenRk_orth hU hV, eigenRk_det hU hV, rfl, rfl⟩

/-- C3 witness. -/
theorem rotation_extraction_closed_form_witness :
    (((1 : Matrix (Fin 3) (Fin 3) ℝ))ᵀ * 1 = 1)
    ∧ ((ICPStepEigenRun (fun _ => (1, 1)) (fun _ => 1) (fun _ => 0)
          ⟨1, ![0, 0, 0, 1], fun _ => 0, 1⟩).Rk)ᵀ
        * (ICPStepEigenRun (fun _ => (1, 1)) (fun _ => 1) (fun _ => 0)
            ⟨1, ![0, 0, 0, 1], fun _ => 0, 1⟩).Rk = 1
    ∧ (ICPStepEigenRun (fun _ => (1, 1)) (fun _ => 1) (fun _ => 0)
          ⟨1, ![0, 0, 0, 1], fun _ => 0, 1⟩).sk
        = Real.sqrt ((fun _ : Fin 11 => (1 : ℝ)) 9 / (fun _ : Fin 11 => (1 : ℝ)) 10) := by
  have h1 : ((1 : Matrix (Fin 3) (Fin 3) ℝ))ᵀ * 1 = 1 := by
    rw [Matrix.transpose_one, one_mul]
  have h := rotation_extraction_closed_form (fun _ => (1, 1)) (fun _ => 1) (fun _ => 0)
    ⟨1, ![0, 0, 0, 1], fun _ => 0, 1⟩ h1 h1
  exact ⟨h1, h.2.1, h.2.2.2.1⟩

/-- C4 — Degenerate numeric conditions raise no error: the closed-form step
is a total function with no error path; even for a covariance bundle with
zero scale denominator `Sij[10] = 0`, the incremental scale is computed as
the unguarded `√(Sij[9]/Sij[10])`, the step still produces a quaternion
(the conversion of its incremental rotation), and the convergence test
applied to the step's output is still exactly the controller's own
threshold/iteration test. -/
theorem degenerate_no_error
    (svd : Matrix (Fin 3) (Fin 3) ℝ → Matrix (Fin 3) (Fin 3) ℝ × Matrix (Fin 3) (Fin 3) ℝ)
    (Sij : Fin 11 → ℝ) (mean : Fin 8 → ℝ) (cum : CumTransform)
    (hdeg : Sij 10 = 0) :
    (ICPStepEigenRun svd Sij mean cum).sk = Real.sqrt (Sij 9 / 0)
    ∧ (ICPStepEigenRun svd Sij mean cum).qk
        = quatFromMat ((ICPStepEigenRun svd Sij mean cum).Rk)
    ∧ (∀ (p : ICPParams) (k : ℕ),
        checkStop p k (ICPStepEigenRun svd Sij mean cum).qk
            (ICPStepEigenRun svd Sij mean cum).tk
          ↔ (k = p.maxIterations
              ∨ (deltaAngleDeg (ICPStepEigenRun svd Sij mean cum).qk < p.angleThreshold
                  ∧ norm3 (ICPStepEigenRun svd Sij mean cum).tk < p.translationThreshold))) := by
  refine ⟨?_, rfl, fun p k => Iff.rfl⟩
  show Real.sqrt (Sij 9 / Sij 10) = Real.sqrt (Sij 9 / 0)
  rw [hdeg]

/-- C4 witness. -/
theorem degenerate_no_error_witness :
    ((fun _ : Fin 11 => (0 : ℝ)) 10 = 0)
    ∧ (ICPStepEigenRun (fun _ => (1, 1)) (fun _ => 0) (fun _ => 0)
          ⟨1, ![0, 0, 0, 1], fun _ => 0, 1⟩).sk
        = Real.sqrt ((fun _ : Fin 11 => (0 : ℝ)) 9 / 0)
    ∧ (ICPStepEigenRun (fun _ => (1, 1)) (fun _ => 0) (fun _ => 0)
          ⟨1, ![0, 0, 0, 1], fun _ => 0, 1⟩).qk
        = quatFromMat ((ICPStepEigenRun (fun _ => (1, 1)) (fun _ => 0) (fun _ => 0)
            ⟨1, ![0, 0, 0, 1], fun _ => 0, 1⟩).Rk) := by
  have h := degenerate_no_error (fun _ => (1, 1)) (fun _ => 0) (fun _ => 0)
    ⟨1, ![0, 0, 0, 1], fun _ => 0, 1⟩ rfl
  exact ⟨rfl, h.1, h.2.1⟩

/-! ## The cumulative-transform invariant (C5) -/

/-- The invariant claimed for the cumulative transform: `R` is a proper
rotation (orthonormal with determinant 1) and the scale is strictly
positive. -/
def ProperRigid (c : CumTransform) : Prop :=
  c.Rᵀ * c.R = 1 ∧ c.R.det = 1 ∧ 0 < c.s

/-- C5 (amended) — Cumulative-transform invariant: the initial state
satisfies the invariant, and each step, under either rotation strategy,
preserves it *provided the incremental transform is non-degenerate*: for the
closed-form path the SVD factors are orthogonal and both scale constituents
`Sij[9]`, `Sij[10]` are positive; for the power-method path the
device-produced quaternion is unit and its scale entry positive. (The
unconditional claim fails; see the counterexample.) -/
theorem cumulative_invariant_preserved :
    ProperRigid ICPStepInit.1
    ∧ (∀ svd Sij mean cum,
        ((svd (Smat Sij)).1)ᵀ * (svd (Smat Sij)).1 = 1 →
        ((svd (Smat Sij)).2)ᵀ * (svd (Smat Sij)).2 = 1 →
        0 < Sij 9 → 0 < Sij 10 →
        ProperRigid cum → ProperRigid (ICPStepEigenRun svd Sij mean cum).cum)
    ∧ (∀ Tk cum,
        Tk 0 * Tk 0 + Tk 1 * Tk 1 + Tk 2 * Tk 2 + Tk 3 * Tk 3 = 1 →
        0 < Tk 7 →
        ProperRigid cum → ProperRigid (ICPStepPowerRun Tk cum).cum) := by
  refine ⟨⟨?_, ?_, ?_⟩, ?_, ?_⟩
  · show (1 : Matrix (Fin 3) (Fin 3) ℝ)ᵀ * 1 = 1
    rw [Matrix.transpose_one, one_mul]
  · exact Matrix.det_one
  · show (0 : ℝ) < 1
    norm_num
  · intro svd Sij mean cum hU hV h9 h10 hcum
    refine ⟨?_, ?_, ?_⟩
    · exact orth_mul (eigenRk_orth hU hV) hcum.1
    · show ((eigenRk (svd (Smat Sij)).1 (svd (Smat Sij)).2) * cum.R).det = 1
      rw [Matrix.det_mul, eigenRk_det hU hV, hcum.2.1, one_mul]
    · show 0 < Real.sqrt (Sij 9 / Sij 10) * cum.s
      exact mul_pos (Real.sqrt_pos.mpr (div_pos h9 h10)) hcum.2.2
  · intro Tk cum hq h7 hcum
    refine ⟨?_, ?_, ?_⟩
    · exact orth_mul (quatToRotMat_orth hq) hcum.1
    · show ((quatToRotMat ![Tk 0, Tk 1, Tk 2, Tk 3]) * cum.R).det = 1
      rw [Matrix.det_mul, quatToRotMat_det hq, hcum.2.1, one_mul]
    · show 0 < Tk 7 * cum.s
      exact mul_pos h7 hcum.2.2

/-- C5 counterexample: a degenerate covariance bundle (`Sij[9] = 0`,
`Sij[10] = 1`) makes the closed-form step compute `s_k = √(0/1) = 0`, so a
cumulative state satisfying the invariant is mapped to one with scale `0` —
the step does *not* preserve `s > 0` unconditionally. -/
theorem cumulative_invariant_counterexample :
    ProperRigid ⟨1, ![0, 0, 0, 1], fun _ => 0, 1⟩
    ∧ ¬ ProperRigid (ICPStepEigenRun (fun _ => (1, 1))
        ![0, 0, 0, 0, 0, 0, 0, 0, 0, 0, 1] (fun _ => 0)
        ⟨1, ![0, 0, 0, 1], fun _ => 0, 1⟩).cum := by
  constructor
  · refine ⟨?_, Matrix.det_one, by norm_num⟩
    show (1 : Matrix (Fin 3) (Fin 3) ℝ)ᵀ * 1 = 1
    rw [Matrix.transpose_one, one_mul]
  · intro hPR
    have hs := hPR.2.2
    have hzero : (ICPStepEigenRun (fun _ => (1, 1))
        ![0, 0, 0, 0, 0, 0, 0, 0, 0, 0, 1] (fun _ => 0)
        ⟨1, ![0, 0, 0, 1], fun _ => 0, 1⟩).cum.s = 0 := by
      show Real.sqrt ((0 : ℝ) / 1) * 1 = 0
      rw [zero_div, Real.sqrt_zero, zero_mul]
    rw [hzero] at hs
    exact lt_irrefl 0 hs

/-- C5 witness (for the amended preservation theorem). -/
theorem cumulative_invariant_preserved_witness :
    ProperRigid (ICPStepEigenRun (fun _ => (1, 1)) (fun _ => 1) (fun _ => 0)
        ⟨1, ![0, 0, 0, 1], fun _ => 0, 1⟩).cum
    ∧ ProperRigid (ICPStepPowerRun ![0, 0, 0, 1, 0, 0, 0, 1]
        ⟨1, ![0, 0, 0, 1], fun _ => 0, 1⟩).cum := by
  have h1 : ((1 : Matrix (Fin 3) (Fin 3) ℝ))ᵀ * 1 = 1 := by
    rw [Matrix.transpose_one, one_mul]
  have hcum : ProperRigid ⟨1, ![0, 0, 0, 1], fun _ => 0, 1⟩ :=
    ⟨h1, Matrix.det_one, by norm_num⟩
  constructor
  · exact cumulative_invariant_preserved.2.1 (fun _ => (1, 1)) (fun _ => 1) (fun _ => 0)
      ⟨1, ![0, 0, 0, 1], fun _ => 0, 1⟩ h1 h1 (by norm_num) (by norm_num) hcum
  · exact cumulative_invariant_preserved.2.2 ![0, 0, 0, 1, 0, 0, 0, 1]
      ⟨1, ![0, 0, 0, 1], fun _ => 0, 1⟩ (by norm_num)
      (by show (0 : ℝ) < 1; norm_num) hcum

end ICPSpec
